import Mathlib

/-!
Shallow embedding of the spanning-tree convergence protocol from
`src/spanningtree.rs` and the graph container from `src/graph.rs`.

Modelling conventions:
* Rust `isize` is embedded as `Int`, `usize` as `Nat`; none of the verified
  claims involve values anywhere near the machine bounds, and the protocol
  performs no wrapping arithmetic on ids.
* Mutation is embedded as explicit state passing: a Rust method
  `&mut self`-mutating method becomes a function returning the new value.
* The recursive propagation `run_calc` and the unbounded `simulate` loop are
  embedded with explicit fuel; running out of fuel is a distinct outcome
  (`none` / `SimResult.fuelOut`) and never identified with normal return.
* The `rand::thread_rng().gen_range` calls in `simulate` are determinized by
  an explicit stream `rand : Nat → Nat` consumed at successive indices, taken
  modulo the node count; a panic of `gen_range(0, 0)` on an empty node list
  is the `SimResult.panicked` outcome.
-/

namespace Spanning

/-- Embeds `Node` from `src/spanningtree.rs`: one participant of the spanning tree. -/
structure Node where
  id : Int
  name : String
  msg_count : Nat
  next_hop : Option Int
  root_cost : Nat
  root_id : Int
deriving DecidableEq

/-- Embeds `Link` from `src/spanningtree.rs`: a weighted undirected edge. -/
structure Link where
  members : Int × Int
  cost : Nat
deriving DecidableEq

/-- Embeds `Tree` from `src/spanningtree.rs`. -/
structure Tree where
  node_list : List Node
  root_id : Option Int
  link_list : List Link
deriving DecidableEq

/-- Model of `Node::new`. -/
def Node.new (id : Int) (name : String) : Node :=
  { id := id
    name := name
    msg_count := 0
    next_hop := none
    root_cost := 0
    root_id := id }

/-- Model of `Node::receive_suggestion`: increments `msg_count` unconditionally (the
Rust code does this first; the increment does not affect the later reads of
`root_id` and `root_cost`, so it is folded into each branch's result here),
then adopts the suggested root if its id is strictly lower, or the cheaper
cost if the suggested root equals the current one; returns whether it
accepted. -/
def Node.receive_suggestion (n : Node) (suggested_id : Int) (source_id : Int)
    (root_cost : Nat) : Bool × Node :=
  if suggested_id < n.root_id then
    (true, { n with msg_count := n.msg_count + 1, root_cost := root_cost,
                    next_hop := some source_id, root_id := suggested_id })
  else if suggested_id = n.root_id ∧ root_cost < n.root_cost then
    (true, { n with msg_count := n.msg_count + 1, root_cost := root_cost,
                    next_hop := some source_id })
  else
    (false, { n with msg_count := n.msg_count + 1 })

/-- Model of `Link::new`. -/
def Link.new (members : Int × Int) (cost : Nat) : Link :=
  { members := members, cost := cost }

/-- Model of `Tree::new`. -/
def Tree.new : Tree :=
  { node_list := [], root_id := none, link_list := [] }

/-- The loop predicate of `Tree::find_link`: the link connects `a` and `b`
in either orientation. -/
def linkConnects (link : Link) (a b : Int) : Bool :=
  decide ((link.members.1 = a ∧ link.members.2 = b) ∨
          (link.members.1 = b ∧ link.members.2 = a))

/-- Model of `Tree::find_link`: first link, if any, between `a` and `b` (either order). -/
def Tree.find_link (t : Tree) (a b : Int) : Option Link :=
  t.link_list.find? (fun link => linkConnects link a b)

/-- Model of `Tree::find_links`: all links incident to `node_id`. -/
def Tree.find_links (t : Tree) (node_id : Int) : List Link :=
  t.link_list.filter (fun link =>
    decide (link.members.1 = node_id) || decide (link.members.2 = node_id))

/-- Model of `Tree::add_link`: pushes the link only when no link with the same
unordered member pair is stored yet. -/
def Tree.add_link (t : Tree) (link : Link) : Tree :=
  if (t.find_link link.members.1 link.members.2).isNone then
    { t with link_list := t.link_list ++ [link] }
  else
    t

/-- Model of `Tree::add_node`: duplicate ids are silently ignored, otherwise the node
is pushed and the tree-level `root_id` bookkeeping is lowered if needed. -/
def Tree.add_node (t : Tree) (node : Node) : Tree :=
  if t.node_list.any (fun node1 => decide (node1.id = node.id)) then
    t
  else
    { t with
      root_id :=
        match t.root_id with
        | none => some node.id
        | some r => if node.id < r then some node.id else some r
      node_list := t.node_list ++ [node] }

/-- Model of `Tree::get_node`: the first stored node with the given id, if any. -/
def Tree.get_node (t : Tree) (node_id : Int) : Option Node :=
  t.node_list.find? (fun node_item => decide (node_item.id = node_id))

/-- The neighbor-resolution expression inside `Tree::run_calc`'s link loop:
`if node_id == link.members.0 {link.members.1} else if node_id == link.members.1
{link.members.0} else {-1}`. -/
def otherEnd (node_id : Int) (link : Link) : Int :=
  if node_id = link.members.1 then link.members.2
  else if node_id = link.members.2 then link.members.1
  else -1

/-- The `position` + `get_mut` + `receive_suggestion` step of `run_calc`'s link
loop: apply `f` to the first node whose id is `other`; returns the acceptance
flag, the id of the mutated node (`other_node.id`, pushed into the recursion
work list by the Rust code), and the updated node list. `none` when no node
with that id exists. -/
def applyToFirst (other : Int) (f : Node → Bool × Node) :
    List Node → Option (Bool × Int × List Node)
  | [] => none
  | n :: rest =>
    if n.id = other then
      let r := f n
      some (r.1, ((r.2).id, r.2 :: rest))
    else
      match applyToFirst other f rest with
      | none => none
      | some (accept, oid, rest') => some (accept, (oid, n :: rest'))

/-- The `for link in &self.link_list` loop of `Tree::run_calc`: suggests the
snapshot `(root_id, root_cost)` to the node at the other end of every link,
collecting into the recursion work list the ids of neighbors that accepted
(only when `recursive` is set). -/
def processLinks (node_id : Int) (root_id : Int) (root_cost : Nat)
    (recursive : Bool) : List Link → List Node → List Node × List Int
  | [], nl => (nl, [])
  | link :: rest, nl =>
    match applyToFirst (otherEnd node_id link)
        (fun n => n.receive_suggestion root_id node_id (root_cost + link.cost)) nl with
    | none => processLinks node_id root_id root_cost recursive rest nl
    | some (accept, oid, nl') =>
      let r := processLinks node_id root_id root_cost recursive rest nl'
      (r.1, (if accept && recursive then [oid] else []) ++ r.2)

/-- Model of `Tree::run_calc`, with explicit fuel bounding the recursion depth.
`none` means the fuel ran out; `some (b, t')` is the Rust return value `b`
together with the mutated tree. Absent `node_id` returns `some (false, t)`
without touching anything, exactly as the early `return false`. The
`for id in recursive_vec { self.run_calc(id, recursive); }` loop is the
`foldl` over the collected ids, running each recursive call (at one less
fuel) in order and discarding its boolean. -/
def runCalcFuel (fuel : Nat) (t : Tree) (node_id : Int) (recursive : Bool) :
    Option (Bool × Tree) :=
  match fuel with
  | 0 => none
  | f + 1 =>
    match t.node_list.find? (fun n => decide (n.id = node_id)) with
    | none => some (false, t)
    | some node =>
      let p := processLinks node_id node.root_id node.root_cost recursive
        t.link_list t.node_list
      let go : Option Tree → Int → Option Tree := fun acc id =>
        match acc with
        | none => none
        | some tcur =>
          match runCalcFuel f tcur id recursive with
          | none => none
          | some r => some r.2
      match p.2.foldl go (some { t with node_list := p.1 }) with
      | none => none
      | some t2 => some (true, t2)

/-- Outcome of the fueled `simulate` embedding: `panicked` models the
`gen_range(0, 0)` panic on an empty node list, `fuelOut` means the fuel bound
was hit, `finished` is normal return with the final tree. -/
inductive SimResult where
  | panicked : SimResult
  | fuelOut : SimResult
  | finished : Tree → SimResult
deriving DecidableEq

/-- One batch of `min_iterations` rounds of `Tree::simulate`'s inner `for`
loop: each round samples `rand` at the next index (mod the node count) and
runs `run_calc` on the node at that position. An empty node list panics in
`gen_range(0, 0)`. -/
def runBatch (cfuel : Nat) (rand : Nat → Nat) (base : Nat) (t : Tree)
    (iters : Nat) (recursive : Bool) : SimResult :=
  match iters with
  | 0 => .finished t
  | k + 1 =>
    if t.node_list.length = 0 then
      .panicked
    else
      match t.node_list[rand base % t.node_list.length]? with
      | none => .panicked
      | some nd =>
        match runCalcFuel cfuel t nd.id recursive with
        | none => .fuelOut
        | some r => runBatch cfuel rand (base + 1) r.2 k recursive

/-- Model of `Tree::simulate`, with explicit batch fuel `bfuel` (the Rust loop is
unbounded) and per-`run_calc` fuel `cfuel`: a do-while loop running batches of
`min_iterations` rounds, repeating while some node's `msg_count` is still
`≤ min_hops` and `min_hops ≠ 0`. -/
def simulateFuel (bfuel cfuel : Nat) (rand : Nat → Nat) (base : Nat) (t : Tree)
    (min_iterations min_hops : Nat) (recursive : Bool) : SimResult :=
  match bfuel with
  | 0 => .fuelOut
  | b + 1 =>
    match runBatch cfuel rand base t min_iterations recursive with
    | .panicked => .panicked
    | .fuelOut => .fuelOut
    | .finished t' =>
      if (t'.node_list.any fun node => decide (node.msg_count ≤ min_hops)) &&
          !(min_hops = 0) then
        simulateFuel b cfuel rand (base + min_iterations) t'
          min_iterations min_hops recursive
      else
        .finished t'

end Spanning

namespace Graphs

/-- Embeds `Node` from `src/graph.rs`: id `-1` until inserted into a graph. -/
structure GNode where
  id : Int
  name : String
  is_discovered : Bool
deriving DecidableEq

/-- Model of `Node::new` from `src/graph.rs`. -/
def GNode.new (name : String) : GNode :=
  { id := -1, name := name, is_discovered := false }

/-- Embeds `Link` from `src/graph.rs`. -/
structure GLink where
  members : Int × Int
  cost : Nat
deriving DecidableEq

/-- Embeds `Graph` from `src/graph.rs`. -/
structure Graph where
  node_list : List GNode
  link_list : List GLink
deriving DecidableEq

/-- Model of `Graph::add_node`: duplicate names resolve to the stored node's id;
otherwise the node is inserted with id set to the current length (the
`usize → isize` conversion always succeeds for list lengths). Returns the
resolved id together with the new graph. -/
def Graph.add_node (g : Graph) (node : GNode) : Int × Graph :=
  match g.node_list.find? (fun node1 => decide (node1.name = node.name)) with
  | some node1 => (node1.id, g)
  | none =>
    let len : Int := (g.node_list.length : Int)
    (len, { g with node_list := g.node_list ++ [{ node with id := len }] })

/-- Model of `Graph::get_node`: `node_id.try_into::<usize>().unwrap()` panics for a
negative id (`Except.error ()`); otherwise positional lookup, absent
positions giving `Option.none`. -/
def Graph.get_node (g : Graph) (node_id : Int) : Except Unit (Option GNode) :=
  if node_id < 0 then
    .error ()
  else
    .ok g.node_list[node_id.toNat]?

end Graphs

namespace Spanning

/-- C1: `receive_suggestion` adopts a strictly lower suggested root
unconditionally, adopts a cheaper cost for the currently believed root, and
rejects everything else; the returned boolean is true exactly when one of the
two accepting branches fired. -/
theorem receive_suggestion_spec (n : Node) (s src : Int) (c : Nat) :
    (s < n.root_id →
      n.receive_suggestion s src c =
        (true, { n with msg_count := n.msg_count + 1, root_cost := c,
                        next_hop := some src, root_id := s })) ∧
    (¬ s < n.root_id → s = n.root_id → c < n.root_cost →
      n.receive_suggestion s src c =
        (true, { n with msg_count := n.msg_count + 1, root_cost := c,
                        next_hop := some src })) ∧
    (¬ (s < n.root_id ∨ (s = n.root_id ∧ c < n.root_cost)) →
      n.receive_suggestion s src c =
        (false, { n with msg_count := n.msg_count + 1 })) ∧
    ((n.receive_suggestion s src c).1 = true ↔
      (s < n.root_id ∨ (s = n.root_id ∧ c < n.root_cost))) := by
  unfold Node.receive_suggestion
  refine ⟨?_, ?_, ?_, ?_⟩
  · intro h; rw [if_pos h]
  · intro h1 h2 h3; rw [if_neg h1, if_pos ⟨h2, h3⟩]
  · intro h
    have h1 : ¬ s < n.root_id := fun hx => h (Or.inl hx)
    have h2 : ¬ (s = n.root_id ∧ c < n.root_cost) := fun hx => h (Or.inr hx)
    rw [if_neg h1, if_neg h2]
  · by_cases h1 : s < n.root_id
    · rw [if_pos h1]; simp [h1]
    · by_cases h2 : s = n.root_id ∧ c < n.root_cost
      · rw [if_neg h1, if_pos h2]; simp [h2]
      · rw [if_neg h1, if_neg h2]; simp [h1, h2]

/-- The node of the `receive_suggestion` doctest, used as concrete input. -/
def nodeThreeN : Node := Node.new 3 "N"

/-- C1 witness: the doctest call `Node::new(3).receive_suggestion(2, 8, 10)`
fires the lower-root branch. -/
theorem receive_suggestion_spec_witness :
    (2 : Int) < nodeThreeN.root_id ∧
    nodeThreeN.receive_suggestion 2 8 10 =
      (true, { nodeThreeN with msg_count := nodeThreeN.msg_count + 1,
                               root_cost := 10, next_hop := some 8,
                               root_id := 2 }) :=
  ⟨by decide, (receive_suggestion_spec nodeThreeN 2 8 10).1 (by decide)⟩

/-- C7: `receive_suggestion` increments `msg_count` by exactly one, even on
rejection, and a rejected call changes nothing but `msg_count`. -/
theorem receive_suggestion_frame (n : Node) (s src : Int) (c : Nat) :
    ((n.receive_suggestion s src c).2).msg_count = n.msg_count + 1 ∧
    ((n.receive_suggestion s src c).1 = false →
      (n.receive_suggestion s src c).2 = { n with msg_count := n.msg_count + 1 }) := by
  unfold Node.receive_suggestion
  constructor
  · split_ifs <;> rfl
  · split_ifs with h1 h2
    · intro h; simp at h
    · intro h; simp at h
    · intro _; rfl

/-- C7 witness: a rejected suggestion (root 5 offered to a node believing in
root 3) leaves everything but `msg_count` unchanged. -/
theorem receive_suggestion_frame_witness :
    (nodeThreeN.receive_suggestion 5 0 1).1 = false ∧
    (nodeThreeN.receive_suggestion 5 0 1).2 =
      { nodeThreeN with msg_count := nodeThreeN.msg_count + 1 } :=
  ⟨by decide, (receive_suggestion_frame nodeThreeN 5 0 1).2 (by decide)⟩

/-- Inserting a node whose id is already stored is a no-op. -/
theorem add_node_of_mem {t : Tree} {n : Node}
    (h : (t.node_list.any fun node1 => decide (node1.id = n.id)) = true) :
    t.add_node n = t := by
  unfold Tree.add_node
  rw [if_pos h]

/-- After `add_node`, some stored node carries the inserted id. -/
theorem add_node_mem (t : Tree) (n : Node) :
    ((t.add_node n).node_list.any fun node1 => decide (node1.id = n.id)) = true := by
  unfold Tree.add_node
  split_ifs with h
  · exact h
  · simp [List.any_append]

/-- Inserting a link whose unordered pair is already connected is a no-op. -/
theorem add_link_of_found {t : Tree} {l : Link}
    (h : (t.find_link l.members.1 l.members.2).isNone = false) :
    t.add_link l = t := by
  unfold Tree.add_link
  rw [h]
  simp

/-- A stored link connecting `a` and `b` makes `find_link a b` succeed. -/
theorem find_link_not_none {t : Tree} {a b : Int} (k : Link)
    (hk : k ∈ t.link_list) (hc : linkConnects k a b = true) :
    (t.find_link a b).isNone = false := by
  unfold Tree.find_link
  rcases h : t.link_list.find? (fun link => linkConnects link a b) with _ | v
  · rw [List.find?_eq_none] at h
    exact absurd hc (h k hk)
  · rfl

/-- After `add_link l`, some stored link connects `l`'s member pair, queried
in either orientation. -/
theorem find_link_after_add (t : Tree) (l : Link) (a b : Int)
    (hconn : linkConnects l a b = true) :
    ((t.add_link l).find_link a b).isNone = false := by
  unfold Tree.add_link
  split_ifs with h
  · -- the link was pushed and itself connects a and b
    refine find_link_not_none (t := { t with link_list := t.link_list ++ [l] })
      l ?_ hconn
    simp
  · -- a link with the same pair was already stored; it also connects a and b
    rw [Bool.not_eq_true, Option.isNone_eq_false_iff, Option.isSome_iff_exists] at h
    obtain ⟨k, hk⟩ := h
    unfold Tree.find_link at hk
    have hmem := List.mem_of_find?_eq_some hk
    have hpred := List.find?_some hk
    refine find_link_not_none k hmem ?_
    simp only [linkConnects, decide_eq_true_eq] at hpred hconn ⊢
    rcases hpred with ⟨h1, h2⟩ | ⟨h1, h2⟩ <;> rcases hconn with ⟨h3, h4⟩ | ⟨h3, h4⟩ <;>
      simp_all

/-- C8: `add_node` and `add_link` are idempotent — re-inserting a node with
the same id, or a link with the same unordered member pair in either
orientation, leaves the tree exactly as after the first insertion; the
duplicate is silently ignored. -/
theorem add_node_add_link_idempotent (t : Tree) (n : Node) (l l' : Link)
    (h : l'.members = l.members ∨ l'.members = (l.members.2, l.members.1)) :
    (t.add_node n).add_node n = t.add_node n ∧
    (t.add_link l).add_link l' = t.add_link l := by
  constructor
  · exact add_node_of_mem (add_node_mem t n)
  · refine add_link_of_found ?_
    refine find_link_after_add t l l'.members.1 l'.members.2 ?_
    simp only [linkConnects, decide_eq_true_eq]
    rcases h with h | h <;> rw [h] <;> simp

/-- C8 witness: the doctest pair — inserting `Link::new((8,1),6)` and then the
reversed `Link::new((1,8),6)`, and `Node::new(2)` twice, changes nothing the
second time. -/
theorem add_node_add_link_idempotent_witness :
    ((Link.new (1, 8) 6).members = (Link.new (8, 1) 6).members ∨
      (Link.new (1, 8) 6).members =
        ((Link.new (8, 1) 6).members.2, (Link.new (8, 1) 6).members.1)) ∧
    ((Tree.new.add_node (Node.new 2 "Second Node")).add_node
        (Node.new 2 "Second Node") =
      Tree.new.add_node (Node.new 2 "Second Node")) ∧
    ((Tree.new.add_link (Link.new (8, 1) 6)).add_link (Link.new (1, 8) 6) =
      Tree.new.add_link (Link.new (8, 1) 6)) :=
  ⟨by decide,
   (add_node_add_link_idempotent Tree.new (Node.new 2 "Second Node")
      (Link.new (8, 1) 6) (Link.new (1, 8) 6) (by decide)).1,
   (add_node_add_link_idempotent Tree.new (Node.new 2 "Second Node")
      (Link.new (8, 1) 6) (Link.new (1, 8) 6) (by decide)).2⟩

/-- The doctest topology of `Tree::run_calc`: nodes 4, 2, 3 and links
`(2,4)` of cost 5 and `(3,2)` of cost 8. -/
def exampleTree : Tree :=
  ((((Tree.new.add_node (Node.new 4 "Second Node")).add_node
      (Node.new 2 "Second Node")).add_node
      (Node.new 3 "Second Node")).add_link
      (Link.new (2, 4) 5)).add_link (Link.new (3, 2) 8)

/-- The state of `exampleTree` after `run_calc(2, false)`: node 4 adopted
`(2, 5, hop 2)` and node 3 — a direct neighbor of 2 via link `(3,2)` —
adopted `(2, 8, hop 2)`. -/
def exampleTreeAfter : Tree :=
  { node_list :=
      [{ id := 4, name := "Second Node", msg_count := 1, next_hop := some 2,
         root_cost := 5, root_id := 2 },
       Node.new 2 "Second Node",
       { id := 3, name := "Second Node", msg_count := 1, next_hop := some 2,
         root_cost := 8, root_id := 2 }],
    root_id := some 2,
    link_list := [Link.new (2, 4) 5, Link.new (3, 2) 8] }

/-- C2 counterexample: a single non-recursive `run_calc(2)` does NOT leave
node 3's belief untouched — node 3 is directly linked to node 2 and adopts
root 2 at cost 8 (exactly what the doctest in the source asserts). -/
theorem run_calc_example_counterexample :
    runCalcFuel 1 exampleTree 2 false = some (true, exampleTreeAfter) ∧
    exampleTreeAfter.get_node 3 ≠ exampleTree.get_node 3 := by decide

/-- C2 amended: `run_calc(2, recursive=false)` on the 4/2/3 topology leaves
node 4 with `root_id=2, root_cost=5, next_hop=2` and node 3 with
`root_id=2, root_cost=8, next_hop=2`. -/
theorem run_calc_example_amended :
    runCalcFuel 1 exampleTree 2 false = some (true, exampleTreeAfter) ∧
    (exampleTreeAfter.get_node 4).map
        (fun nd => (nd.root_id, nd.root_cost, nd.next_hop)) =
      some (2, 5, some 2) ∧
    (exampleTreeAfter.get_node 3).map
        (fun nd => (nd.root_id, nd.root_cost, nd.next_hop)) =
      some (2, 8, some 2) := by decide

/-- A topology with one node and one self-link `(1,1)`. -/
def selfLoopTree : Tree :=
  (Tree.new.add_node (Node.new 1 "S")).add_link (Link.new (1, 1) 3)

/-- State of `selfLoopTree` after `run_calc(1, true)`: only `msg_count` moved. -/
def selfLoopTreeAfter : Tree :=
  { node_list := [{ Node.new 1 "S" with msg_count := 1 }],
    root_id := some 1,
    link_list := [Link.new (1, 1) 3] }

/-- C3 counterexample: `run_calc` does NOT filter self-links — resolving "the
other end" of `(1,1)` from node 1 yields node 1 itself, which therefore
receives a suggestion from itself and has its `msg_count` incremented from 0
to 1. -/
theorem run_calc_self_link_counterexample :
    otherEnd 1 (Link.new (1, 1) 3) = 1 ∧
    runCalcFuel 1 selfLoopTree 1 true = some (true, selfLoopTreeAfter) ∧
    (selfLoopTree.get_node 1).map (fun nd => nd.msg_count) = some 0 ∧
    (selfLoopTreeAfter.get_node 1).map (fun nd => nd.msg_count) = some 1 := by
  decide

/-- C3 amended: self-links are not filtered — the node receives the
suggestion from itself and `msg_count` increments — but a suggestion carrying
the node's own believed root at a cost not below its current cost is always
rejected, so a self-link never triggers the recursive cascade: `run_calc`
over the self-link topology already terminates with recursion depth 1
(fuel 1) and the belief triple unchanged. -/
theorem run_calc_self_link_amended :
    (∀ (nd : Node) (src : Int) (c : Nat),
      (nd.receive_suggestion nd.root_id src (nd.root_cost + c)).1 = false) ∧
    runCalcFuel 1 selfLoopTree 1 true = some (true, selfLoopTreeAfter) ∧
    (selfLoopTreeAfter.get_node 1).map
        (fun nd => (nd.root_id, nd.root_cost, nd.next_hop)) =
      (selfLoopTree.get_node 1).map
        (fun nd => (nd.root_id, nd.root_cost, nd.next_hop)) := by
  refine ⟨?_, by decide, by decide⟩
  intro nd src c
  unfold Node.receive_suggestion
  rw [if_neg (lt_irrefl _), if_neg (by push_neg; intro _; omega)]

/-- C4: `simulate` on an empty topology is NOT a no-op — with
`min_iterations = 1` the very first round calls `gen_range(0, 0)`, which
panics (and the subsequent `node_list[randi]` indexing would panic too).
This holds for `min_hops = 0` and `min_hops = 100`, recursive or not. -/
theorem simulate_empty_tree_panics :
    runBatch 1 (fun _ => 0) 0 Tree.new 1 false = .panicked ∧
    simulateFuel 1 1 (fun _ => 0) 0 Tree.new 1 0 false = .panicked ∧
    simulateFuel 1 1 (fun _ => 0) 0 Tree.new 1 100 true = .panicked := by decide

/-- C6: probing absent ids. In the spanningtree store, `get_node` on an
absent id gives `none` and `run_calc` on an absent id returns `false` leaving
the tree (nodes, links, bookkeeping) exactly unchanged — but in the graph
store of `src/graph.rs`, `get_node(-1)` hits
`node_id.try_into::<usize>().unwrap()` and panics instead of returning
`None`, contradicting the claim (and the function's own doc comment). -/
theorem get_node_negative_id_panics :
    Graphs.Graph.get_node
        { node_list := [{ id := 0, name := "Node1", is_discovered := false }],
          link_list := [] } (-1) = .error () ∧
    Graphs.Graph.get_node
        { node_list := [{ id := 0, name := "Node1", is_discovered := false }],
          link_list := [] } 2 = .ok none ∧
    exampleTree.get_node 999 = none ∧
    exampleTree.get_node (-1) = none ∧
    runCalcFuel 1 exampleTree 999 false = some (false, exampleTree) ∧
    runCalcFuel 1 exampleTree (-1) false = some (false, exampleTree) :=
  ⟨rfl, rfl, by decide, by decide, by decide, by decide⟩

/-- With `min_hops = 0` the do-while condition is false after the first
batch, so `simulate` is exactly one batch. -/
theorem simulateFuel_min_hops_zero (bf cf : Nat) (rand : Nat → Nat)
    (base : Nat) (t : Tree) (mi : Nat) (recFlag : Bool) :
    simulateFuel (bf + 1) cf rand base t mi 0 recFlag =
      runBatch cf rand base t mi recFlag := by
  unfold simulateFuel
  cases h : runBatch cf rand base t mi recFlag <;> simp

/-- When `simulate` finishes normally with `min_hops ≠ 0`, the do-while
condition was false: every node's `msg_count` exceeds `min_hops`. -/
theorem simulateFuel_finished_msg_count (bf : Nat) :
    ∀ (cf : Nat) (rand : Nat → Nat) (base : Nat) (t : Tree) (mi mh : Nat)
      (recFlag : Bool) (t' : Tree),
      simulateFuel bf cf rand base t mi mh recFlag = .finished t' → mh ≠ 0 →
      ∀ n ∈ t'.node_list, mh < n.msg_count := by
  induction bf with
  | zero => intro cf rand base t mi mh recFlag t' h; simp [simulateFuel] at h
  | succ b ih =>
    intro cf rand base t mi mh recFlag t' h hmh
    unfold simulateFuel at h
    cases hb : runBatch cf rand base t mi recFlag with
    | panicked => rw [hb] at h; exact absurd h (by simp)
    | fuelOut => rw [hb] at h; exact absurd h (by simp)
    | finished t1 =>
      rw [hb] at h
      dsimp only at h
      by_cases hc : ((t1.node_list.any fun node => decide (node.msg_count ≤ mh)) &&
          !(decide (mh = 0))) = true
      · rw [if_pos hc] at h
        exact ih cf rand (base + mi) t1 mi mh recFlag t' h hmh
      · rw [if_neg hc] at h
        have ht' : t1 = t' := by cases h; rfl
        subst ht'
        intro n hn
        rw [Bool.and_eq_true, not_and] at hc
        by_cases ha : (t1.node_list.any fun node => decide (node.msg_count ≤ mh)) = true
        · exact absurd (by simp [hmh]) (hc ha)
        · rw [List.any_eq_true] at ha
          push_neg at ha
          have := ha n hn
          simp at this
          omega

/-- C5: `simulate` runs in batches of `min_iterations` `run_calc` rounds;
with `min_hops = 0` it is exactly one batch regardless of message counts, and
whenever it returns normally with `min_hops ≠ 0`, every node's `msg_count`
strictly exceeds `min_hops`. -/
theorem simulate_batches (bf cf : Nat) (rand : Nat → Nat) (base : Nat)
    (t : Tree) (mi mh : Nat) (recFlag : Bool) (t' : Tree) :
    (simulateFuel (bf + 1) cf rand base t mi 0 recFlag =
      runBatch cf rand base t mi recFlag) ∧
    (simulateFuel bf cf rand base t mi mh recFlag = .finished t' → mh ≠ 0 →
      ∀ n ∈ t'.node_list, mh < n.msg_count) :=
  ⟨simulateFuel_min_hops_zero bf cf rand base t mi recFlag,
   fun h hmh => simulateFuel_finished_msg_count bf cf rand base t mi mh
     recFlag t' h hmh⟩

/-- Two nodes 1 and 2 joined by a link of cost 1. -/
def pairTree : Tree :=
  ((Tree.new.add_node (Node.new 1 "A")).add_node (Node.new 2 "B")).add_link
    (Link.new (1, 2) 1)

/-- State of `pairTree` after two alternating-selection batches of two rounds:
both nodes have received two suggestions and agree on root 1. -/
def pairTreeConverged : Tree :=
  { node_list :=
      [{ Node.new 1 "A" with msg_count := 2 },
       { id := 2, name := "B", msg_count := 2, next_hop := some 1,
         root_cost := 1, root_id := 1 }],
    root_id := some 1,
    link_list := [Link.new (1, 2) 1] }

/-- C5 witness: on `pairTree` with alternating random selections,
`simulate(min_iterations=2, min_hops=1)` finishes and both nodes' message
counts exceed 1. -/
theorem simulate_batches_witness :
    simulateFuel 2 1 (fun i => i) 0 pairTree 2 1 false =
      .finished pairTreeConverged ∧
    (1 : Nat) ≠ 0 ∧
    ∀ n ∈ pairTreeConverged.node_list, 1 < n.msg_count :=
  ⟨by decide, by decide,
   (simulate_batches 2 1 (fun i => i) 0 pairTree 2 1 false
      pairTreeConverged).2 (by decide) (by decide)⟩

/-- Auxiliary reachability invariant: a node's believed root id never exceeds
its own id. -/
def NodeRootLe (n : Node) : Prop := n.root_id ≤ n.id

/-- The claimed per-node invariant: a node that believes itself root has zero
root cost and no next hop. -/
def NodeSelfRoot (n : Node) : Prop :=
  n.root_id = n.id → n.root_cost = 0 ∧ n.next_hop = none

/-- The inductive invariant closed under `receive_suggestion`. -/
def NodeInv (n : Node) : Prop := NodeRootLe n ∧ NodeSelfRoot n

instance (n : Node) : Decidable (NodeRootLe n) :=
  inferInstanceAs (Decidable (n.root_id ≤ n.id))

instance (n : Node) : Decidable (NodeSelfRoot n) :=
  inferInstanceAs (Decidable (n.root_id = n.id → n.root_cost = 0 ∧ n.next_hop = none))

instance (n : Node) : Decidable (NodeInv n) :=
  inferInstanceAs (Decidable (NodeRootLe n ∧ NodeSelfRoot n))

/-- A fresh node satisfies the invariant. -/
theorem nodeInv_new (i : Int) (nm : String) : NodeInv (Node.new i nm) :=
  ⟨le_refl _, fun _ => ⟨rfl, rfl⟩⟩

/-- Preservation: `receive_suggestion` keeps the invariant: a strictly lower root makes
the node a non-root believer; a cheaper-cost update cannot fire while the node
believes itself root (its cost is already 0). -/
theorem receive_preserves_nodeInv (n : Node) (s src : Int) (c : Nat)
    (h : NodeInv n) : NodeInv ((n.receive_suggestion s src c).2) := by
  obtain ⟨hle, hself⟩ := h
  unfold Node.receive_suggestion NodeInv NodeRootLe NodeSelfRoot
  split_ifs with h1 h2
  · refine ⟨le_trans (le_of_lt h1) hle, ?_⟩
    intro hs
    exact absurd hs (ne_of_lt (lt_of_lt_of_le h1 hle))
  · refine ⟨hle, ?_⟩
    intro hroot
    obtain ⟨hs, hc⟩ := h2
    have h0 := (hself hroot).1
    rw [h0] at hc
    exact absurd hc (Nat.not_lt_zero c)
  · exact ⟨hle, fun hroot => hself hroot⟩

/-- A per-node predicate preserved by `f` is preserved by `applyToFirst`. -/
theorem applyToFirst_preserves {P : Node → Prop} {f : Node → Bool × Node}
    (hf : ∀ n, P n → P (f n).2) (other : Int) :
    ∀ (nl : List Node) (trip : Bool × Int × List Node),
      applyToFirst other f nl = some trip →
      (∀ n ∈ nl, P n) → ∀ n ∈ trip.2.2, P n := by
  intro nl
  induction nl with
  | nil => intro trip h; simp [applyToFirst] at h
  | cons hd tl ih =>
    intro trip h hall
    unfold applyToFirst at h
    split_ifs at h with hid
    · dsimp only at h
      cases h
      intro n hn
      rcases List.mem_cons.mp hn with rfl | hmem
      · exact hf hd (hall hd (List.mem_cons_self _ _))
      · exact hall n (List.mem_cons_of_mem _ hmem)
    · cases hrec : applyToFirst other f tl with
      | none => rw [hrec] at h; cases h
      | some trip' =>
        obtain ⟨a, o, r⟩ := trip'
        rw [hrec] at h
        dsimp only at h
        cases h
        intro n hn
        rcases List.mem_cons.mp hn with rfl | hmem
        · exact hall n (List.mem_cons_self _ _)
        · exact ih ⟨a, o, r⟩ hrec (fun m hm => hall m (List.mem_cons_of_mem _ hm)) n hmem

/-- A per-node predicate preserved by `receive_suggestion` is preserved by
the link sweep of `run_calc`. -/
theorem processLinks_preserves {P : Node → Prop}
    (hP : ∀ n s src c, P n → P ((Node.receive_suggestion n s src c).2))
    (node_id root_id : Int) (root_cost : Nat) (recursive : Bool) :
    ∀ (ls : List Link) (nl : List Node),
      (∀ n ∈ nl, P n) →
      ∀ n ∈ (processLinks node_id root_id root_cost recursive ls nl).1, P n := by
  intro ls
  induction ls with
  | nil => intro nl hall; simpa [processLinks] using hall
  | cons link rest ih =>
    intro nl hall
    unfold processLinks
    cases hap : applyToFirst (otherEnd node_id link)
        (fun n => n.receive_suggestion root_id node_id (root_cost + link.cost)) nl with
    | none =>
      simp only [hap]
      exact ih nl hall
    | some trip =>
      obtain ⟨accept, oid, nl'⟩ := trip
      simp only [hap]
      exact ih nl'
        (applyToFirst_preserves
          (fun n hn => hP n root_id node_id (root_cost + link.cost) hn)
          (otherEnd node_id link) nl ⟨accept, oid, nl'⟩ hap hall)

/-- Folding a step that maps `none` to `none` over `none` stays `none`. -/
theorem foldl_option_none (go : Option Tree → Int → Option Tree)
    (hnone : ∀ id, go none id = none) :
    ∀ ids : List Int, ids.foldl go none = none := by
  intro ids
  induction ids with
  | nil => rfl
  | cons id rest ih => rw [List.foldl_cons, hnone]; exact ih

/-- A tree predicate preserved by each successful step of the work-list fold
is preserved by the whole fold. -/
theorem foldl_option_preserves {Q : Tree → Prop}
    (go : Option Tree → Int → Option Tree)
    (hnone : ∀ id, go none id = none)
    (hgo : ∀ tcur id t2, go (some tcur) id = some t2 → Q tcur → Q t2) :
    ∀ (ids : List Int) (t0 tres : Tree),
      ids.foldl go (some t0) = some tres → Q t0 → Q tres := by
  intro ids
  induction ids with
  | nil => intro t0 tres h hq; cases h; exact hq
  | cons id rest ih =>
    intro t0 tres h hq
    rw [List.foldl_cons] at h
    cases hstep : go (some t0) id with
    | none => rw [hstep, foldl_option_none go hnone] at h; cases h
    | some t1 => rw [hstep] at h; exact ih t1 tres h (hgo t0 id t1 hstep hq)

/-- A per-node predicate preserved by `receive_suggestion` holds of every
node after a successful `run_calc`, at any fuel. -/
theorem runCalcFuel_preserves {P : Node → Prop}
    (hP : ∀ n s src c, P n → P ((Node.receive_suggestion n s src c).2)) :
    ∀ (fuel : Nat) (t : Tree) (nid : Int) (r : Bool) (res : Bool × Tree),
      runCalcFuel fuel t nid r = some res →
      (∀ n ∈ t.node_list, P n) → ∀ n ∈ res.2.node_list, P n := by
  intro fuel
  induction fuel with
  | zero => intro t nid r res h; simp [runCalcFuel] at h
  | succ f ih =>
    intro t nid r res h hall
    unfold runCalcFuel at h
    split at h
    · cases h; exact hall
    · rename_i node hfind
      dsimp only at h
      split at h
      · cases h
      · rename_i t2 hfold
        cases h
        refine foldl_option_preserves (Q := fun tr => ∀ n ∈ tr.node_list, P n)
          _ (fun id => rfl) ?_ _ _ _ hfold
          (processLinks_preserves hP nid node.root_id node.root_cost r
            t.link_list t.node_list hall)
        intro tcur id t2' hstep hq
        dsimp only at hstep
        cases hcalc : runCalcFuel f tcur id r with
        | none => rw [hcalc] at hstep; cases hstep
        | some rr =>
          rw [hcalc] at hstep
          dsimp only at hstep
          cases hstep
          exact ih tcur id r rr hcalc hq

/-- A per-node predicate preserved by `receive_suggestion` survives one batch
of `simulate` rounds. -/
theorem runBatch_preserves {P : Node → Prop}
    (hP : ∀ n s src c, P n → P ((Node.receive_suggestion n s src c).2)) :
    ∀ (iters cf : Nat) (rand : Nat → Nat) (base : Nat) (t t' : Tree)
      (recFlag : Bool),
      runBatch cf rand base t iters recFlag = .finished t' →
      (∀ n ∈ t.node_list, P n) → ∀ n ∈ t'.node_list, P n := by
  intro iters
  induction iters with
  | zero =>
    intro cf rand base t t' recFlag h hall
    cases h
    exact hall
  | succ k ih =>
    intro cf rand base t t' recFlag h hall
    unfold runBatch at h
    split_ifs at h with hlen
    split at h
    · cases h
    · rename_i nd hget
      split at h
      · cases h
      · rename_i r hcalc
        exact ih cf rand (base + 1) r.2 t' recFlag h
          (runCalcFuel_preserves hP cf t nd.id recFlag r hcalc hall)

/-- A per-node predicate preserved by `receive_suggestion` holds of every
node when `simulate` finishes normally. -/
theorem simulateFuel_preserves {P : Node → Prop}
    (hP : ∀ n s src c, P n → P ((Node.receive_suggestion n s src c).2)) :
    ∀ (bf cf : Nat) (rand : Nat → Nat) (base : Nat) (t : Tree) (mi mh : Nat)
      (recFlag : Bool) (t' : Tree),
      simulateFuel bf cf rand base t mi mh recFlag = .finished t' →
      (∀ n ∈ t.node_list, P n) → ∀ n ∈ t'.node_list, P n := by
  intro bf
  induction bf with
  | zero =>
    intro cf rand base t mi mh recFlag t' h
    simp [simulateFuel] at h
  | succ b ih =>
    intro cf rand base t mi mh recFlag t' h hall
    unfold simulateFuel at h
    split at h
    · cases h
    · cases h
    · rename_i t1 hb
      split_ifs at h with hc
      · exact ih cf rand (base + mi) t1 mi mh recFlag t' h
          (runBatch_preserves hP mi cf rand base t t1 recFlag hb hall)
      · cases h
        exact runBatch_preserves hP mi cf rand base t t' recFlag hb hall

/-- C9: the self-root invariant — `root_id = id` implies `root_cost = 0` and
`next_hop = none` — holds of a fresh node, is preserved (as part of the
inductive invariant `NodeInv`) by every `receive_suggestion`, and holds of
every node after any successful `run_calc` or `simulate` on a tree whose
nodes satisfy the invariant. -/
theorem self_root_invariant (i : Int) (nm : String) (n : Node) (s src : Int)
    (c : Nat) (fuel : Nat) (t : Tree) (nid : Int) (r : Bool)
    (res : Bool × Tree) (bf cf : Nat) (rand : Nat → Nat) (base : Nat)
    (mi mh : Nat) (t' : Tree) :
    NodeInv (Node.new i nm) ∧
    (NodeInv n → NodeInv ((n.receive_suggestion s src c).2)) ∧
    ((∀ nd ∈ t.node_list, NodeInv nd) → runCalcFuel fuel t nid r = some res →
      ∀ nd ∈ res.2.node_list, NodeSelfRoot nd) ∧
    ((∀ nd ∈ t.node_list, NodeInv nd) →
      simulateFuel bf cf rand base t mi mh r = .finished t' →
      ∀ nd ∈ t'.node_list, NodeSelfRoot nd) := by
  refine ⟨nodeInv_new i nm, receive_preserves_nodeInv n s src c, ?_, ?_⟩
  · intro hall hrun nd hnd
    exact (runCalcFuel_preserves receive_preserves_nodeInv fuel t nid r res
      hrun hall nd hnd).2
  · intro hall hsim nd hnd
    exact (simulateFuel_preserves receive_preserves_nodeInv bf cf rand base t
      mi mh r t' hsim hall nd hnd).2

/-- C9 witness: on the concrete 4/2/3 topology (all nodes fresh, so the
invariant holds) the tree after `run_calc(2, false)` satisfies the self-root
property at every node. -/
theorem self_root_invariant_witness :
    (∀ nd ∈ exampleTree.node_list, NodeInv nd) ∧
    ∀ nd ∈ exampleTreeAfter.node_list, NodeSelfRoot nd :=
  ⟨by decide,
   (self_root_invariant 0 "" (Node.new 0 "") 0 0 0 1 exampleTree 2 false
      (true, exampleTreeAfter) 0 0 (fun _ => 0) 0 0 0 Tree.new).2.2.1
     (by decide) (by decide)⟩

/-- Pointwise evolution relation between an old and a new node state: same
identity, and the believed root id did not increase. -/
def NodeDescends (a b : Node) : Prop := b.id = a.id ∧ b.root_id ≤ a.root_id

theorem nodeDescends_rfl (n : Node) : NodeDescends n n := ⟨rfl, le_refl _⟩

theorem nodeDescends_trans {a b c : Node} (h1 : NodeDescends a b)
    (h2 : NodeDescends b c) : NodeDescends a c :=
  ⟨h2.1.trans h1.1, h2.2.trans h1.2⟩

/-- A single `receive_suggestion` never raises `root_id` and never changes
the node's identity. -/
theorem receive_descends (n : Node) (s src : Int) (c : Nat) :
    NodeDescends n ((n.receive_suggestion s src c).2) := by
  unfold Node.receive_suggestion NodeDescends
  split_ifs with h1 h2
  · exact ⟨rfl, le_of_lt h1⟩
  · exact ⟨rfl, le_refl _⟩
  · exact ⟨rfl, le_refl _⟩

/-- Preservation: `receive_suggestion` keeps `root_id ≤ id`. -/
theorem receive_preserves_rootLe (n : Node) (s src : Int) (c : Nat)
    (h : NodeRootLe n) : NodeRootLe ((n.receive_suggestion s src c).2) := by
  unfold Node.receive_suggestion NodeRootLe at *
  split_ifs with h1 h2
  · exact le_trans (le_of_lt h1) h
  · exact h
  · exact h

theorem descendsList_refl : ∀ l : List Node, List.Forall₂ NodeDescends l l := by
  intro l
  induction l with
  | nil => exact List.Forall₂.nil
  | cons hd tl ih => exact List.Forall₂.cons (nodeDescends_rfl hd) ih

theorem descendsList_trans :
    ∀ {l1 l2 l3 : List Node}, List.Forall₂ NodeDescends l1 l2 →
      List.Forall₂ NodeDescends l2 l3 → List.Forall₂ NodeDescends l1 l3 := by
  intro l1 l2 l3 h1
  induction h1 generalizing l3 with
  | nil => intro h2; cases h2; exact List.Forall₂.nil
  | cons hab htl ih =>
    intro h2
    cases h2 with
    | cons hbc htl' =>
      exact List.Forall₂.cons (nodeDescends_trans hab hbc) (ih htl')

/-- Applying `applyToFirst` with a descending step relates old and new node lists
pointwise. -/
theorem applyToFirst_descends {f : Node → Bool × Node}
    (hf : ∀ n, NodeDescends n (f n).2) (other : Int) :
    ∀ (nl : List Node) (trip : Bool × Int × List Node),
      applyToFirst other f nl = some trip →
      List.Forall₂ NodeDescends nl trip.2.2 := by
  intro nl
  induction nl with
  | nil => intro trip h; simp [applyToFirst] at h
  | cons hd tl ih =>
    intro trip h
    unfold applyToFirst at h
    split_ifs at h with hid
    · dsimp only at h
      cases h
      exact List.Forall₂.cons (hf hd) (descendsList_refl tl)
    · cases hrec : applyToFirst other f tl with
      | none => rw [hrec] at h; cases h
      | some trip' =>
        obtain ⟨a, o, r⟩ := trip'
        rw [hrec] at h
        dsimp only at h
        cases h
        exact List.Forall₂.cons (nodeDescends_rfl hd) (ih ⟨a, o, r⟩ hrec)

/-- The link sweep of `run_calc` relates old and new node lists pointwise. -/
theorem processLinks_descends (node_id root_id : Int) (root_cost : Nat)
    (recursive : Bool) :
    ∀ (ls : List Link) (nl : List Node),
      List.Forall₂ NodeDescends nl
        (processLinks node_id root_id root_cost recursive ls nl).1 := by
  intro ls
  induction ls with
  | nil => intro nl; exact descendsList_refl nl
  | cons link rest ih =>
    intro nl
    unfold processLinks
    cases hap : applyToFirst (otherEnd node_id link)
        (fun n => n.receive_suggestion root_id node_id (root_cost + link.cost)) nl with
    | none =>
      simp only [hap]
      exact ih nl
    | some trip =>
      obtain ⟨accept, oid, nl'⟩ := trip
      simp only [hap]
      exact descendsList_trans
        (applyToFirst_descends
          (fun n => receive_descends n root_id node_id (root_cost + link.cost))
          (otherEnd node_id link) nl ⟨accept, oid, nl'⟩ hap)
        (ih nl')

/-- A successful `run_calc` relates old and new node lists pointwise: same
ids in the same positions, no `root_id` raised. -/
theorem runCalcFuel_descends :
    ∀ (fuel : Nat) (t : Tree) (nid : Int) (r : Bool) (res : Bool × Tree),
      runCalcFuel fuel t nid r = some res →
      List.Forall₂ NodeDescends t.node_list res.2.node_list := by
  intro fuel
  induction fuel with
  | zero => intro t nid r res h; simp [runCalcFuel] at h
  | succ f ih =>
    intro t nid r res h
    unfold runCalcFuel at h
    split at h
    · cases h; exact descendsList_refl t.node_list
    · rename_i node hfind
      dsimp only at h
      split at h
      · cases h
      · rename_i t2 hfold
        cases h
        refine foldl_option_preserves
          (Q := fun tr => List.Forall₂ NodeDescends t.node_list tr.node_list)
          _ (fun id => rfl) ?_ _ _ _ hfold
          (processLinks_descends nid node.root_id node.root_cost r
            t.link_list t.node_list)
        intro tcur id t2' hstep hq
        dsimp only at hstep
        cases hcalc : runCalcFuel f tcur id r with
        | none => rw [hcalc] at hstep; cases hstep
        | some rr =>
          rw [hcalc] at hstep
          dsimp only at hstep
          cases hstep
          exact descendsList_trans hq (ih tcur id r rr hcalc)

/-- One `simulate` batch relates old and new node lists pointwise. -/
theorem runBatch_descends :
    ∀ (iters cf : Nat) (rand : Nat → Nat) (base : Nat) (t t' : Tree)
      (recFlag : Bool),
      runBatch cf rand base t iters recFlag = .finished t' →
      List.Forall₂ NodeDescends t.node_list t'.node_list := by
  intro iters
  induction iters with
  | zero =>
    intro cf rand base t t' recFlag h
    cases h
    exact descendsList_refl t.node_list
  | succ k ih =>
    intro cf rand base t t' recFlag h
    unfold runBatch at h
    split_ifs at h with hlen
    split at h
    · cases h
    · rename_i nd hget
      split at h
      · cases h
      · rename_i r hcalc
        exact descendsList_trans (runCalcFuel_descends cf t nd.id recFlag r hcalc)
          (ih cf rand (base + 1) r.2 t' recFlag h)

/-- A normally finishing `simulate` relates old and new node lists pointwise. -/
theorem simulateFuel_descends :
    ∀ (bf cf : Nat) (rand : Nat → Nat) (base : Nat) (t : Tree) (mi mh : Nat)
      (recFlag : Bool) (t' : Tree),
      simulateFuel bf cf rand base t mi mh recFlag = .finished t' →
      List.Forall₂ NodeDescends t.node_list t'.node_list := by
  intro bf
  induction bf with
  | zero =>
    intro cf rand base t mi mh recFlag t' h
    simp [simulateFuel] at h
  | succ b ih =>
    intro cf rand base t mi mh recFlag t' h
    unfold simulateFuel at h
    split at h
    · cases h
    · cases h
    · rename_i t1 hb
      split_ifs at h with hc
      · exact descendsList_trans
          (runBatch_descends mi cf rand base t t1 recFlag hb)
          (ih cf rand (base + mi) t1 mi mh recFlag t' h)
      · cases h
        exact runBatch_descends mi cf rand base t t' recFlag hb

/-- C10: no operation ever raises a node's `root_id` — a single
`receive_suggestion` keeps it equal or lowers it, successful `run_calc` and
normally finishing `simulate` relate every stored node pointwise by
`NodeDescends` (same id, `root_id` not raised) — and, on trees whose nodes
satisfy `root_id ≤ id` (as all freshly built nodes do), the believed root
never exceeds the node's own id afterwards either. -/
theorem root_id_monotone (n : Node) (s src : Int) (c : Nat) (fuel : Nat)
    (t : Tree) (nid : Int) (r : Bool) (res : Bool × Tree) (bf cf : Nat)
    (rand : Nat → Nat) (base : Nat) (mi mh : Nat) (t' : Tree) :
    (((n.receive_suggestion s src c).2).root_id ≤ n.root_id ∧
      ((n.receive_suggestion s src c).2).id = n.id) ∧
    (runCalcFuel fuel t nid r = some res →
      List.Forall₂ NodeDescends t.node_list res.2.node_list) ∧
    (simulateFuel bf cf rand base t mi mh r = .finished t' →
      List.Forall₂ NodeDescends t.node_list t'.node_list) ∧
    (NodeRootLe n → NodeRootLe ((n.receive_suggestion s src c).2)) ∧
    ((∀ nd ∈ t.node_list, NodeRootLe nd) →
      runCalcFuel fuel t nid r = some res →
      ∀ nd ∈ res.2.node_list, NodeRootLe nd) ∧
    ((∀ nd ∈ t.node_list, NodeRootLe nd) →
      simulateFuel bf cf rand base t mi mh r = .finished t' →
      ∀ nd ∈ t'.node_list, NodeRootLe nd) := by
  refine ⟨⟨(receive_descends n s src c).2, (receive_descends n s src c).1⟩,
    fun h => runCalcFuel_descends fuel t nid r res h,
    fun h => simulateFuel_descends bf cf rand base t mi mh r t' h,
    receive_preserves_rootLe n s src c, ?_, ?_⟩
  · intro hall hrun
    exact runCalcFuel_preserves receive_preserves_rootLe fuel t nid r res
      hrun hall
  · intro hall hsim
    exact simulateFuel_preserves receive_preserves_rootLe bf cf rand base t
      mi mh r t' hsim hall

/-- C10 witness: on the 4/2/3 topology, the `run_calc(2, false)` step keeps
every node's `root_id` non-increased and below its own id. -/
theorem root_id_monotone_witness :
    List.Forall₂ NodeDescends exampleTree.node_list
      exampleTreeAfter.node_list ∧
    ∀ nd ∈ exampleTreeAfter.node_list, NodeRootLe nd :=
  ⟨(root_id_monotone (Node.new 0 "") 0 0 0 1 exampleTree 2 false
      (true, exampleTreeAfter) 0 0 (fun _ => 0) 0 0 0 Tree.new).2.1
     (by decide),
   (root_id_monotone (Node.new 0 "") 0 0 0 1 exampleTree 2 false
      (true, exampleTreeAfter) 0 0 (fun _ => 0) 0 0 0 Tree.new).2.2.2.2.1
     (by decide) (by decide)⟩

end Spanning
